import Mathlib

/-!
Verification of the ffmpeg-2pass-tools repository core logic.

This file gives a shallow embedding, in Lean 4, of the pure logic of the
repository's Python sources:

* `src/ffmpeg_2pass_and_exif.py` — command-line token scanning
  (`CommandProcessor.find_arg_position` / `find_arg_after` / `find_bitrate` /
  `find_encoder` / `find_output_format` / `find_output` / `find_one_input`)
  and the two-pass planning pipeline `ffmpeg_2pass_and_exif`.
* `src/burst_shots_into_live_photo.py` — `ImageFile.get_sequence_and_pattern`
  and `BurstSeries.find_all_series`.
* `src/get_ffmpeg_input_flags.py` — `guess_framerate`.

Conventions of the embedding:

* Python strings are Lean `String`s; all scanning is done on `String.toList`
  with hand-rolled structural recursions so that every definition evaluates
  by kernel reduction.  The sources only ever scan ASCII data, so ASCII
  versions of `str.lower` and `\d` are used.
* Python floats (capture times) are embedded as `ℚ`; the sources only
  subtract and compare them.
* The file system is passed explicitly: `fs : String → List String` maps a
  path to the list of its text lines (I/O errors are out of scope), and
  `globFn : String → List String` maps a glob pattern to the matching paths.
* Python `int` is `Int`, list indices are `Nat`; Python's negative-index
  wraparound is modelled explicitly where the source relies on it.
-/

/-! ## Character and string utilities -/

/-- The apostrophe character (`'`), as used by the concat-list line format. -/
def tickc : Char := Char.ofNat 39

/-- The newline character, which `re.DOTALL`-less `.` does not match. -/
def nlc : Char := Char.ofNat 10

/-- ASCII lower-casing of one character (the sources only scan ASCII tokens,
so this models both `str.lower` and `re.IGNORECASE`). -/
def asciiLower (c : Char) : Char :=
  if 65 ≤ c.toNat ∧ c.toNat ≤ 90 then Char.ofNat (c.toNat + 32) else c

/-- Numeric value of a digit run, as Python's `int(...)` computes it. -/
def natOfDigits (ds : List Char) : Nat :=
  ds.foldl (fun n c => n * 10 + (c.toNat - 48)) 0

/-- Index of the last occurrence of `c`, Python's `str.rfind` (absent = `none`). -/
def lastIndexOf (c : Char) (cs : List Char) : Option Nat :=
  match cs.reverse.findIdx? (· == c) with
  | none => none
  | some k => some (cs.length - 1 - k)

/-- `posixpath.basename`: everything after the last slash. -/
def pyBasename (p : String) : String :=
  match lastIndexOf '/' p.toList with
  | none => p
  | some i => String.mk (p.toList.drop (i + 1))

/-- Remove trailing slashes, Python's `str.rstrip('/')`. -/
def stripTrailingSlashes (cs : List Char) : List Char :=
  (cs.reverse.dropWhile (· == '/')).reverse

/-- `posixpath.dirname`: the head part of `posixpath.split`, i.e. everything up
to and including the last slash, with trailing slashes stripped unless the head
consists only of slashes. -/
def pyDirname (p : String) : String :=
  match lastIndexOf '/' p.toList with
  | none => ""
  | some i =>
    let head := p.toList.take (i + 1)
    if head.any (fun c => c ≠ '/') then String.mk (stripTrailingSlashes head)
    else String.mk head

/-- `posixpath.join` for the two-argument case used by the source. -/
def pyJoin (a b : String) : String :=
  if b.toList.head? = some '/' then b
  else if a = "" ∨ a.toList.getLast? = some '/' then a ++ b
  else a ++ "/" ++ b

/-- Root part of `os.path.splitext(p)`: `p` with its extension stripped.
The extension starts at the last dot, provided that dot lies after the last
slash and the basename has a non-dot character before it (so `.bashrc` has no
extension). -/
def splitextRoot (p : String) : String :=
  let cs := p.toList
  match lastIndexOf '.' cs with
  | none => p
  | some dotI =>
    let sepI : Int := match lastIndexOf '/' cs with | none => -1 | some s => (s : Int)
    if sepI < (dotI : Int) ∧ ((cs.take dotI).drop (sepI + 1).toNat).any (fun c => c ≠ '.')
    then String.mk (cs.take dotI)
    else p

/-- Python `str.replace(pat, repl)` (all occurrences, left to right), for a
non-empty pattern `p :: ps`.  The `fuel` argument only drives the structural
recursion; it is always called with `fuel = length of the scanned list`, which
is enough since every step consumes at least one character. -/
def replaceAllAux (p : Char) (ps : List Char) (repl : List Char) :
    Nat → List Char → List Char
  | _, [] => []
  | 0, cs => cs
  | fuel + 1, c :: rest =>
    if (p :: ps).isPrefixOf (c :: rest) then
      repl ++ replaceAllAux p ps repl fuel ((c :: rest).drop (ps.length + 1))
    else
      c :: replaceAllAux p ps repl fuel rest

/-- Python `s.replace(pat, repl)`.  Every call site in the sources has a
non-empty `pat`; for an empty `pat` we return `s` unchanged. -/
def replaceAll (s pat repl : String) : String :=
  match pat.toList with
  | [] => s
  | p :: ps => String.mk (replaceAllAux p ps repl.toList s.toList.length s.toList)

/-- Case-insensitive test for the regex `\.(mov|mp4)$` (as used with
`re.findall` truthiness by `CommandProcessor.find_output`): the token ends in
`.mov` or `.mp4`, possibly followed by one final newline (Python's `$`). -/
def endsMovMp4 (s : String) : Bool :=
  let l := s.toList.map asciiLower
  (".mov".toList.isSuffixOf l) || (".mp4".toList.isSuffixOf l) ||
    ((".mov".toList ++ [nlc]).isSuffixOf l) || ((".mp4".toList ++ [nlc]).isSuffixOf l)

/-- Leftmost match of `re.search(r'(\d{3,})', ...)`: the first maximal run of
three or more consecutive digits (the run is taken greedily from its first
position). -/
def searchDigitRun : List Char → Option (List Char)
  | [] => none
  | c :: rest =>
    let run := (c :: rest).takeWhile (·.isDigit)
    if 3 ≤ run.length then some run else searchDigitRun rest

/-- One `re.sub(r'%(\d+)d', ...)` step of `find_one_input`: replace every
printf-style width token `%Nd` by `N` literal `?` characters.  `fuel` drives
the structural recursion exactly as in `replaceAllAux`. -/
def substPercentAux : Nat → List Char → List Char
  | _, [] => []
  | 0, cs => cs
  | fuel + 1, c :: rest =>
    let ds := rest.takeWhile (·.isDigit)
    if c = '%' ∧ ds ≠ [] ∧ (rest.drop ds.length).head? = some 'd' then
      List.replicate (natOfDigits ds) '?' ++
        substPercentAux fuel (rest.drop (ds.length + 1))
    else
      c :: substPercentAux fuel rest

/-- Convert a printf pattern into a glob pattern (`re.sub(r'%(\d+)d', '?'*N, s)`). -/
def substPercent (s : String) : String :=
  String.mk (substPercentAux s.toList.length s.toList)

/-- The literal `file '` prefix scanned for in concat list lines. -/
def fileTick : List Char := "file ".toList ++ [tickc]

/-- `re.findall("file '(.+)'", line)` restricted to its first capture, i.e.
the leftmost match of `file '` that is followed — before any newline — by a
closing quote at distance at least one; the greedy `.+` captures up to the
last such quote. -/
def concatCapture (line : String) : Option String :=
  let cs := line.toList
  let ok := fun (i : Nat) =>
    fileTick.isPrefixOf (cs.drop i) &&
      ((((cs.drop (i + 6)).takeWhile (fun c => c ≠ nlc)).drop 1).any (· == tickc))
  match (List.range cs.length).find? ok with
  | none => none
  | some i =>
    let span := (cs.drop (i + 6)).takeWhile (fun c => c ≠ nlc)
    let j := span.length - 1 - (span.reverse.findIdx (· == tickc))
    some (String.mk (span.take j))

/-- Scan concat-list lines from the end and return the first capture found,
as the loop at the end of `find_one_input` does. -/
def lastConcatMatch (lines : List String) : Option String :=
  lines.reverse.findSome? concatCapture

/-! ## TokenScanner and ArgumentInspector (`ffmpeg_2pass_and_exif.py`) -/

/-- `PositionedArgument` from `ffmpeg_2pass_and_exif.py`: a token value and its
index in the argument vector. -/
structure PositionedArgument where
  val : String
  pos : Nat
deriving DecidableEq, Repr

/-- `CommandProcessor.find_arg_position`: the first (or, searching backwards,
the last) index `i` in `0 .. len-2` whose token fully matches the pattern.
The regexes used at every call site are literal strings, so the pattern is
embedded as a Boolean predicate on the token. -/
def find_arg_position (args : List String) (p : String → Bool) (backwards : Bool) :
    Option Nat :=
  let idxs := List.range (args.length - 1)
  (if backwards then idxs.reverse else idxs).find? (fun i => p (args.getD i ""))

/-- `CommandProcessor.find_arg_after`: the argument immediately after the first
(or last) token matching the pattern. -/
def find_arg_after (args : List String) (p : String → Bool) (backwards : Bool) :
    Option PositionedArgument :=
  match find_arg_position args p backwards with
  | none => none
  | some pos => some ⟨args.getD (pos + 1) "", pos + 1⟩

/-- `CommandProcessor.find_bitrate`: forward search for `-b:v`. -/
def find_bitrate (args : List String) : Option String :=
  (find_arg_after args (· == "-b:v") false).map (·.val)

/-- `CommandProcessor.find_encoder`: forward search for `-c:v`. -/
def find_encoder (args : List String) : Option String :=
  (find_arg_after args (· == "-c:v") false).map (·.val)

/-- `CommandProcessor.find_output_format`: backward search for `-f`, accepted
only if its argument position is greater than the `-i` argument's position. -/
def find_output_format (args : List String) : Option String :=
  match find_arg_after args (· == "-f") true, find_arg_after args (· == "-i") false with
  | some fArg, some iArg => if iArg.pos < fArg.pos then some fArg.val else none
  | _, _ => none

/-- `CommandProcessor.find_output`: scan the vector from the end for a token
matching `\.(mov|mp4)$` (case-insensitive); on the first such token, return it
unless the token before it is the literal `-i` — Python's `args[i - 1]`, which
for `i = 0` wraps around to the vector's last element. -/
def find_output (args : List String) : Option String :=
  match (List.range args.length).reverse.find? (fun i => endsMovMp4 (args.getD i "")) with
  | none => none
  | some i =>
    let prev := if i = 0 then args.getLastD "" else args.getD (i - 1) ""
    if prev ≠ "-i" then some (args.getD i "") else none

/-- `CommandProcessor.find_one_input`.  `fs` maps a path to its text lines
(Python I/O errors are out of scope of the embedding), `globFn` maps a glob
pattern to the list of matching paths (`glob.glob`). -/
def find_one_input (args : List String) (fs : String → List String)
    (globFn : String → List String) : Option String :=
  match find_arg_after args (· == "-i") false with
  | none => none
  | some iArg =>
    if iArg.val.toList.any (· == '%') then
      -- printf pattern: convert to a glob, sort the matches, take the last.
      let files := List.insertionSort (fun a b : String => a ≤ b)
        (globFn (substPercent iArg.val))
      files.getLast?
    else
      let viaConcat : Option String :=
        match find_arg_after args (· == "-f") true with
        | some fArg => if fArg.val = "concat" then lastConcatMatch (fs iArg.val) else none
        | none => none
      match viaConcat with
      | some path => some path
      | none => some iArg.val

/-! ## EncodePlanner (`ffmpeg_2pass_and_exif` main function) -/

/-- The distinct `CommandlineArgumentError` cases raised by
`ffmpeg_2pass_and_exif`. -/
inductive PlanError
  | noInput
  | outputSpecified
  | badEncoder
  | x265NoTag
deriving DecidableEq, Repr

/-- The `Result` dataclass of `ffmpeg_2pass_and_exif.py`. -/
structure FfResult where
  bitrate : Option String
  encoder : String
  output_path : String
deriving DecidableEq, Repr

deriving instance DecidableEq for Except

/-- Python's `x or y` on an optional string: `y` when `x` is `None` or empty
(falsy), else the string itself. -/
def pyOr (o : Option String) (dflt : String) : String :=
  match o with
  | some s => if s = "" then dflt else s
  | none => dflt

/-- The `-tag:v hvc1` companion check for `libx265`. -/
def tagHvc1Ok (args : List String) : Bool :=
  match find_arg_after args (· == "-tag:v") false with
  | some t => t.val == "hvc1"
  | none => false

/-- `ffmpeg_2pass_and_exif(args)`: validates the argument vector and, on
success, computes the result plus the three commands handed (in order) to the
process runner; on a validation error no command is emitted, mirroring the
straight-line Python code in which every `raise` happens before the first
`execcmd.run`.  Python's `if not one_input` is falsy both for a missing and
for an empty resolved input. -/
def ffmpeg_2pass_and_exif (args : List String) (fs : String → List String)
    (globFn : String → List String) : Except PlanError FfResult × List (List String) :=
  let one_input := find_one_input args fs globFn
  let output_spec := find_output args
  let output_format := pyOr (find_output_format args) "mp4"
  let bitrate := find_bitrate args
  match one_input with
  | none => (Except.error PlanError.noInput, [])
  | some inp =>
    if inp = "" then (Except.error PlanError.noInput, [])
    else if output_spec.isSome then (Except.error PlanError.outputSpecified, [])
    else
      match find_encoder args with
      | none => (Except.error PlanError.badEncoder, [])
      | some encoder =>
        if ¬(encoder = "libx264" ∨ encoder = "libx265") then
          (Except.error PlanError.badEncoder, [])
        else if encoder = "libx265" ∧ ¬tagHvc1Ok args then
          (Except.error PlanError.x265NoTag, [])
        else
          let output_path := splitextRoot inp ++ "." ++ replaceAll encoder "lib" "" ++
            (if bitrate.getD "" ≠ "" then "." ++ bitrate.getD "" ++ "bps" else "") ++
            "." ++ output_format
          let cmd := ["ffmpeg", "-nostdin", "-hide_banner"] ++ args
          let pass1 := if encoder = "libx264" then
              cmd ++ ["-map", "-0?", "-map", "0:v", "-pass", "1", "-f", "null", "/dev/null"]
            else
              cmd ++ ["-map", "-0?", "-map", "0:v", "-x265-params", "pass=1", "-f", "null", "/dev/null"]
          let pass2 := if encoder = "libx264" then cmd ++ ["-pass", "2", output_path]
            else cmd ++ ["-x265-params", "pass=2", output_path]
          let exifCmd := ["exiftool", "-tagsFromFile", inp, "-overwrite_original", output_path]
          (Except.ok ⟨bitrate, encoder, output_path⟩, [pass1, pass2, exifCmd])

/-! ## BurstSegmenter (`burst_shots_into_live_photo.py`) -/

/-- The fields of `ImageFile` relevant to segmentation.  `time` is seconds
since the epoch (`0.0` when unknown), `sequence_num` is `-1` when no sequence
number parses. -/
structure ImageFile where
  path : String
  time : ℚ
  sequence_num : Int
  path_pattern : String
deriving DecidableEq, Repr

instance : Inhabited ImageFile := ⟨⟨"", 0, 0, ""⟩⟩

/-- `ImageFile.get_sequence_and_pattern(path)`: `re.search(r'(\d{3,})', ...)`
on the basename; on a match, the sequence number is the matched digit run's
value and the pattern is `os.path.join(dirname, basename.replace(run, '*'))`
(Python's `str.replace` replaces every occurrence of the run); otherwise
`(-1, path)`. -/
def get_sequence_and_pattern (path : String) : Int × String :=
  match searchDigitRun (pyBasename path).toList with
  | some run =>
    ((natOfDigits run : Int),
      pyJoin (pyDirname path) (replaceAll (pyBasename path) (String.mk run) "*"))
  | none => (-1, path)

/-- Adjacent-key inequality used to embed `itertools.groupby(images,
key=path_pattern)`: a new group starts exactly when the pattern differs from
the previous image's. -/
def patternDiffers (a b : ImageFile) : Prop := a.path_pattern ≠ b.path_pattern

instance (a b : ImageFile) : Decidable (patternDiffers a b) := by
  unfold patternDiffers; infer_instance

/-- The condition of the `if` inside the `find_all_series` walk: the current
image does not continue the previous one (`i == 0` is handled separately by
the walk itself). -/
def newSeriesCond (prev img : ImageFile) : Prop :=
  img.sequence_num ≠ prev.sequence_num + 1 ∨ img.time - prev.time > 1

instance (a b : ImageFile) : Decidable (newSeriesCond a b) := by
  unfold newSeriesCond; infer_instance

/-- Split a list into maximal chunks, starting a new chunk exactly between
adjacent elements `prev`, `next` with `c prev next`.  With `c = patternDiffers`
this is `itertools.groupby` by `path_pattern`. -/
def splitCons {α : Type} (c : α → α → Prop) [DecidableRel c] (x : α) :
    List (List α) → List (List α)
  | (y :: ys) :: rest => if c x y then [x] :: (y :: ys) :: rest else (x :: y :: ys) :: rest
  | gs => [x] :: gs

/-- See `splitCons`. -/
def splitWhen {α : Type} (c : α → α → Prop) [DecidableRel c] : List α → List (List α)
  | [] => []
  | x :: xs => splitCons c x (splitWhen c xs)

/-- Python's stable `sorted(image_iter, key=lambda x: x.sequence_num)`. -/
def sortBySeq (g : List ImageFile) : List ImageFile :=
  List.insertionSort (fun a b : ImageFile => a.sequence_num ≤ b.sequence_num) g

/-- `all_series[-1].images.append(img)` on the accumulated series list. -/
def appendToLast (acc : List (List ImageFile)) (img : ImageFile) : List (List ImageFile) :=
  acc.dropLast ++ [acc.getLastD [] ++ [img]]

/-- The `for i, img in enumerate(images)` loop of `find_all_series` after its
first iteration: `prev` is `images[i-1]`, `acc` the accumulated series. -/
def walkAux (prev : ImageFile) (acc : List (List ImageFile)) :
    List ImageFile → List (List ImageFile)
  | [] => acc
  | img :: rest =>
    if newSeriesCond prev img then walkAux img (acc ++ [[img]]) rest
    else walkAux img (appendToLast acc img) rest

/-- The whole `for i, img in enumerate(images)` loop for one group (the `i == 0`
iteration always opens a new series). -/
def walkGroup (acc : List (List ImageFile)) : List ImageFile → List (List ImageFile)
  | [] => acc
  | img :: rest => walkAux img (acc ++ [[img]]) rest

/-- `BurstSeries.find_all_series(images, min_num_images)`: group the input
into runs of consecutive images sharing `path_pattern` (`itertools.groupby`),
sort each run by sequence number, walk each run appending to a shared series
list, and keep only series with at least `min_num_images` images.  A series is
represented by its image list (`BurstSeries.images`). -/
def find_all_series (images : List ImageFile) (min_num_images : Nat) :
    List (List ImageFile) :=
  let groups := splitWhen patternDiffers images
  let all_series := groups.foldl (fun acc g => walkGroup acc (sortBySeq g)) []
  all_series.filter (fun s => min_num_images ≤ s.length)

/-- The full break condition of the spec's description of the walk: a new
series starts when the pattern changes, the sequence number is not the
successor, or the capture-time delta exceeds one second. -/
def fullBreakCond (prev img : ImageFile) : Prop :=
  img.path_pattern ≠ prev.path_pattern ∨ img.sequence_num ≠ prev.sequence_num + 1 ∨
    img.time - prev.time > 1

instance (a b : ImageFile) : Decidable (fullBreakCond a b) := by
  unfold fullBreakCond; infer_instance

/-- The order in which the `find_all_series` loop visits the images: each
`groupby` run, sorted by sequence number, in run order. -/
def walkOrder (images : List ImageFile) : List ImageFile :=
  ((splitWhen patternDiffers images).map sortBySeq).flatten

/-! ## InputFlagBuilder (`get_ffmpeg_input_flags.py`) -/

/-- Python's built-in `round`: round half to even. -/
def pyRound (q : ℚ) : Int :=
  let n := ⌊q⌋
  let r := q - n
  if r < 1/2 then n
  else if 1/2 < r then n + 1
  else if n % 2 = 0 then n else n + 1

/-- The literal `mapping` table of `guess_framerate`; its second row carries
the rounded rate itself. -/
def frMapping (fr : Int) : List (Int × Int) :=
  [(-1, 1), (1, fr), (7, 8), (9, 10), (11, 12), (14, 15), (18, 20), (23, 25), (27, 30), (45, 30)]

/-- The lookup loop of `guess_framerate`: for the first row `i ≥ 1` with
`fr ≤ mapping[i][0]`, return `mapping[i-1][1]`; if none, return `60`. -/
def mappingWalk (fr : Int) : List (Int × Int) → Int
  | (_, r0) :: (b1, r1) :: rest =>
    if fr ≤ b1 then r0 else mappingWalk fr ((b1, r1) :: rest)
  | _ => 60

/-- `guess_framerate(files)`.  `timeFn` stands for `exiftool_utils.get_time`;
`none` models the `except: return 10` branch.  `files[0]`/`files[-1]` are
`headI`/`getLastI` (the function returns `10` before using them when the list
is shorter than two). -/
def guess_framerate (files : List String) (timeFn : String → Option ℚ) : Int :=
  if files.length < 2 then 10
  else
    match timeFn files.headI, timeFn files.getLastI with
    | some time1, some time2 =>
      if time2 ≤ time1 then 10
      else
        let fr := pyRound (1 / ((time2 - time1) / ((files.length : ℚ) - 1)))
        mappingWalk fr (frMapping fr)
    | _, _ => 10

/-- The fixed bucket table as the spec words it: values below `1` map to `1`,
values from `1` up to the `7` breakpoint pass through unchanged, then the
breakpoints `7, 9, 11, 14, 18, 23, 27, 45` map to the representative rates
`8, 10, 12, 15, 20, 25, 30, 30`, and anything above maps to `60`. -/
def bucketTable (fr : Int) : Int :=
  if fr < 1 then 1
  else if fr ≤ 7 then fr
  else if fr ≤ 9 then 8
  else if fr ≤ 11 then 10
  else if fr ≤ 14 then 12
  else if fr ≤ 18 then 15
  else if fr ≤ 23 then 20
  else if fr ≤ 27 then 25
  else if fr ≤ 45 then 30
  else 60

/-! ## Specification-side definitions used to state the claims -/

/-- Python truthiness of the resolved input (`if not one_input`): an input
"resolves" when `find_one_input` returns a non-empty path. -/
def inputResolved (o : Option String) : Prop := ∃ s, o = some s ∧ s ≠ ""

instance (o : Option String) : Decidable (inputResolved o) := by
  unfold inputResolved
  cases o with
  | none => exact isFalse (by simp)
  | some s => exact decidable_of_iff (s ≠ "") (by simp)

/-- The encoder name with the literal `lib` prefix removed, as the spec words
the output-path rule.  (The source uses `encoder.replace('lib', '')`, which
agrees with this on the two whitelisted encoders.) -/
def stripLibPrefix (s : String) : String :=
  if "lib".toList.isPrefixOf s.toList then String.mk (s.toList.drop 3) else s

/-- The output path as §4.4 of the spec describes it: input path with its
extension stripped, then `.` + encoder minus its `lib` prefix, then — only
when a bitrate was found — `.` + bitrate + `bps`, then `.` + output format. -/
def specOutputPath (input encoder : String) (bitrate : Option String) (fmt : String) : String :=
  splitextRoot input ++ "." ++ stripLibPrefix encoder ++
    (match bitrate with
     | some b => "." ++ b ++ "bps"
     | none => "") ++ "." ++ fmt

/-- A found bitrate in the Python sense (`if bitrate:`): present and non-empty. -/
def truthyBitrate (o : Option String) : Option String :=
  match o with
  | some b => if b = "" then none else some b
  | none => none

/-! ## Concrete test data for witnesses and counterexamples -/

/-- An empty file system: every path reads as an empty file. -/
def fs0 : String → List String := fun _ => []

/-- A glob environment with no matching files. -/
def glob0 : String → List String := fun _ => []

/-- A file system in which `list.txt` is a concat list naming `a.mov`. -/
def fs1 : String → List String := fun p =>
  if p = "list.txt" then [String.mk (fileTick ++ "a.mov".toList ++ [tickc])] else []

/-- Image-descriptor literal used by the concrete segmentation examples. -/
def mkImg (pat : String) (seq : Int) (t : ℚ) : ImageFile := ⟨"", t, seq, pat⟩

/-- Capture times giving two files a raw rate of `13` frames per second. -/
def tfRate13 : String → Option ℚ := fun s =>
  if s = "f1" then some 0 else if s = "f2" then some (1/13) else none

/-- Capture times giving two files a raw rate of `24` frames per second. -/
def tfRate24 : String → Option ℚ := fun s =>
  if s = "f1" then some 0 else if s = "f2" then some (1/24) else none

/-- Capture times giving two files a raw rate of one half frame per second. -/
def tfRateHalf : String → Option ℚ := fun s =>
  if s = "f1" then some 0 else if s = "f2" then some 2 else none

/-! ## Helper lemmas about index scans -/

theorem range_find?_first (p : Nat → Bool) :
    ∀ (m i : Nat), p i = true → i < m → (∀ k, k < i → p k = false) →
      (List.range m).find? p = some i := by
  intro m
  induction m with
  | zero => intro i _ hi; omega
  | succ m ih =>
    intro i hp hi hbelow
    rw [List.range_succ, List.find?_append]
    rcases Nat.lt_or_ge i m with h | h
    · rw [ih i hp h hbelow]; rfl
    · have him : i = m := by omega
      have hnone : (List.range m).find? p = none := by
        rw [List.find?_eq_none]
        intro k hk
        simp only [List.mem_range] at hk
        simp [hbelow k (by omega)]
      rw [hnone, him]
      simp [List.find?, hp, him ▸ hp]

theorem range_reverse_find?_last (p : Nat → Bool) :
    ∀ (m j : Nat), p j = true → j < m → (∀ k, j < k → k < m → p k = false) →
      (List.range m).reverse.find? p = some j := by
  intro m
  induction m with
  | zero => intro j _ hj; omega
  | succ m ih =>
    intro j hp hj habove
    rw [List.range_succ, List.reverse_append]
    simp only [List.reverse_cons, List.reverse_nil, List.nil_append, List.singleton_append]
    rcases Nat.lt_or_ge j m with h | h
    · have hm : p m = false := habove m h (by omega)
      rw [List.find?]
      simp only [hm]
      exact ih j hp h (fun k h1 h2 => habove k h1 (by omega))
    · have hjm : j = m := by omega
      subst hjm
      rw [List.find?]
      simp [hp]

/-! ## C1: sequence/pattern extraction -/

/-- Claim C1 (code bug): the code's `re.search(r'(\d{3,})', basename)` takes
the *first* run of three-or-more digits and `str.replace` replaces *every*
occurrence of the matched text, while the claim (and the source's own
docstring, "The last number that has 3+ digits are considered as the sequence
number") demands the last run, replaced only at its own position: on
`a_111_222.jpg` the code yields `(111, "a_*_222.jpg")`, not the claimed
`(222, "a_111_*.jpg")`.  The four single-run examples of the claim do hold. -/
theorem c1_get_sequence_and_pattern_first_run :
    get_sequence_and_pattern "a_111_222.jpg" = (111, "a_*_222.jpg") ∧
    get_sequence_and_pattern "a_111_222.jpg" ≠ (222, "a_111_*.jpg") ∧
    get_sequence_and_pattern "IMG_0001.jpg" = (1, "IMG_*.jpg") ∧
    get_sequence_and_pattern "IMG_002-1.jpg" = (2, "IMG_*-1.jpg") ∧
    get_sequence_and_pattern "folder_005/IMG_002.jpg" = (2, "folder_005/IMG_*.jpg") ∧
    get_sequence_and_pattern "IMG_01.jpg" = (-1, "IMG_01.jpg") := by
  refine ⟨by decide, by decide, by decide, by decide, by decide, by decide⟩

/-! ## C2: concat-list resolution and flag positions -/

/-- Claim C2 (counterexample): with `-f concat` appearing *after* `-i`,
`find_one_input` still resolves through the concat list (the code never
compares the two positions), so the result is the listed file `a.mov`, not
the claimed literal `-i` value `list.txt`. -/
theorem c2_counterexample :
    find_one_input ["-i", "list.txt", "-f", "concat"] fs1 glob0 = some "a.mov" ∧
    some "a.mov" ≠ some "list.txt" := by
  refine ⟨by decide, by decide⟩

/-- Claim C2 (amended): for a `-i` value containing no `%` character,
`find_one_input` resolves through the concat list exactly when the
backward-found `-f` flag's value equals `concat`, regardless of the relative
positions of `-f` and `-i`; when no concat line matches, or `-f concat` is
absent, the `-i` value is returned unchanged. -/
theorem c2_concat_ignores_position (args : List String) (fs : String → List String)
    (globFn : String → List String) (pa : PositionedArgument)
    (hi : find_arg_after args (· == "-i") false = some pa)
    (hp : pa.val.toList.any (· == '%') = false) :
    find_one_input args fs globFn = some
      (match find_arg_after args (· == "-f") true with
       | some fa => if fa.val = "concat" then (lastConcatMatch (fs pa.val)).getD pa.val
                    else pa.val
       | none => pa.val) := by
  unfold find_one_input
  rw [hi]
  simp only [hp, Bool.false_eq_true, if_false]
  cases hf : find_arg_after args (· == "-f") true with
  | none => simp
  | some fa =>
    by_cases hc : fa.val = "concat"
    · simp only [hc, if_pos rfl]
      cases hm : lastConcatMatch (fs pa.val) <;> simp
    · simp [hc]

/-- Witness for `c2_concat_ignores_position` at a concrete argument vector in
which `-f concat` follows `-i`. -/
theorem c2_concat_ignores_position_witness :
    find_one_input ["-i", "list.txt", "-f", "concat"] fs1 glob0 = some
      (match find_arg_after ["-i", "list.txt", "-f", "concat"] (· == "-f") true with
       | some fa => if fa.val = "concat" then (lastConcatMatch (fs1 "list.txt")).getD "list.txt"
                    else "list.txt"
       | none => "list.txt") :=
  c2_concat_ignores_position ["-i", "list.txt", "-f", "concat"] fs1 glob0
    ⟨"list.txt", 1⟩ (by decide) (by decide)

/-! ## C8: forward/backward agreement of the token scanner -/

/-- Claim C8 (confirmed): when exactly one index in `0 .. len-2` matches the
pattern, forward and backward `find_arg_after` both return the token after
that index; with two distinct matches, forward returns the token after the
earlier one and backward the token after the later one; and on
`[a, -f, concat, -i, x.mov]` both directions find `-f` and return
`concat` at position `2`. -/
theorem c8_find_arg_after_directions :
    (∀ (args : List String) (p : String → Bool) (i : Nat),
      i < args.length - 1 →
      (∀ j, j < args.length - 1 → (p (args.getD j "") = true ↔ j = i)) →
      find_arg_after args p false = some ⟨args.getD (i + 1) "", i + 1⟩ ∧
      find_arg_after args p true = some ⟨args.getD (i + 1) "", i + 1⟩) ∧
    (∀ (args : List String) (p : String → Bool) (i j : Nat),
      i < j → j < args.length - 1 →
      (∀ k, k < args.length - 1 → (p (args.getD k "") = true ↔ (k = i ∨ k = j))) →
      find_arg_after args p false = some ⟨args.getD (i + 1) "", i + 1⟩ ∧
      find_arg_after args p true = some ⟨args.getD (j + 1) "", j + 1⟩) ∧
    (find_arg_after ["a", "-f", "concat", "-i", "x.mov"] (· == "-f") false =
        some ⟨"concat", 2⟩ ∧
      find_arg_after ["a", "-f", "concat", "-i", "x.mov"] (· == "-f") true =
        some ⟨"concat", 2⟩) := by
  have hafter : ∀ (args : List String) (p : String → Bool) (b : Bool) (pos : Nat),
      find_arg_position args p b = some pos →
      find_arg_after args p b = some ⟨args.getD (pos + 1) "", pos + 1⟩ := by
    intro args p b pos h
    unfold find_arg_after
    rw [h]
  have hposf : ∀ (args : List String) (p : String → Bool),
      find_arg_position args p false =
        (List.range (args.length - 1)).find? (fun i => p (args.getD i "")) := fun _ _ => rfl
  have hpost : ∀ (args : List String) (p : String → Bool),
      find_arg_position args p true =
        (List.range (args.length - 1)).reverse.find? (fun i => p (args.getD i "")) :=
    fun _ _ => rfl
  refine ⟨?_, ?_, by decide, by decide⟩
  · intro args p i hi hu
    have hpi : p (args.getD i "") = true := (hu i hi).mpr rfl
    have hfwd := range_find?_first (fun idx => p (args.getD idx "")) (args.length - 1) i hpi hi
      (fun k hk => by
        have : ¬(p (args.getD k "") = true) := by rw [hu k (by omega)]; omega
        simpa using this)
    have hbwd := range_reverse_find?_last (fun idx => p (args.getD idx "")) (args.length - 1) i
      hpi hi
      (fun k h1 h2 => by
        have : ¬(p (args.getD k "") = true) := by rw [hu k (by omega)]; omega
        simpa using this)
    exact ⟨hafter args p false i ((hposf args p).trans hfwd),
      hafter args p true i ((hpost args p).trans hbwd)⟩
  · intro args p i j hij hj hu
    have hpi : p (args.getD i "") = true := by rw [hu i (by omega)]; left; rfl
    have hpj : p (args.getD j "") = true := by rw [hu j hj]; right; rfl
    have hfwd := range_find?_first (fun idx => p (args.getD idx "")) (args.length - 1) i hpi
      (by omega)
      (fun k hk => by
        have : ¬(p (args.getD k "") = true) := by rw [hu k (by omega)]; omega
        simpa using this)
    have hbwd := range_reverse_find?_last (fun idx => p (args.getD idx "")) (args.length - 1) j
      hpj hj
      (fun k h1 h2 => by
        have : ¬(p (args.getD k "") = true) := by rw [hu k (by omega)]; omega
        simpa using this)
    exact ⟨hafter args p false i ((hposf args p).trans hfwd),
      hafter args p true j ((hpost args p).trans hbwd)⟩

/-- Witness for `c8_find_arg_after_directions`: a two-token vector whose only
match is at index `0`. -/
theorem c8_find_arg_after_directions_witness :
    find_arg_after ["-f", "x"] (· == "-f") false = some ⟨"x", 1⟩ ∧
    find_arg_after ["-f", "x"] (· == "-f") true = some ⟨"x", 1⟩ :=
  c8_find_arg_after_directions.1 ["-f", "x"] (· == "-f") 0 (by decide) (by decide)

/-! ## C10: the `args[i - 1]` wraparound in `find_output` -/

/-- Claim C10 (confirmed): when the only token matching `\.(mov|mp4)$` sits at
index `0`, the "immediately preceding token" check reads Python's `args[-1]`,
i.e. the vector's last element; so a vector whose first element matches and
whose last element is `-i` yields no detected output. -/
theorem c10_find_output_wraparound (args : List String) (hne : args ≠ [])
    (h0 : endsMovMp4 (args.getD 0 "") = true)
    (hrest : ∀ k, k < args.length → 0 < k → endsMovMp4 (args.getD k "") = false)
    (hlast : args.getLastD "" = "-i") :
    find_output args = none := by
  have hlen : 0 < args.length := List.length_pos.mpr hne
  have hfind : (List.range args.length).reverse.find?
      (fun i => endsMovMp4 (args.getD i "")) = some 0 := by
    refine range_reverse_find?_last _ _ _ h0 hlen ?_
    intro k h1 h2
    exact hrest k h2 h1
  unfold find_output
  rw [hfind]
  have hl : args.getLast?.getD "" = "-i" := by
    rw [← List.getLastD_eq_getLast?]; exact hlast
  simp [hl]

/-- Witness for `c10_find_output_wraparound`. -/
theorem c10_find_output_wraparound_witness :
    find_output ["out.mov", "x", "-i"] = none :=
  c10_find_output_wraparound ["out.mov", "x", "-i"] (by decide) (by decide)
    (by decide) (by decide)

/-! ## C7: frame-rate guessing -/

set_option maxHeartbeats 1000000 in
/-- Claim C7 (confirmed): `guess_framerate` returns `10` with fewer than two
files, an unavailable timestamp, or a non-positive span; otherwise it rounds
`(count-1)/span` (written `1/ (span/(count-1))` as in the source) and maps the
rounded value through the fixed bucket table; the table walk agrees with the
spec's bucket description for every integer, and the measured raw rates `13`,
`24` and `1/2` map to `12`, `25` and `1` respectively. -/
theorem c7_guess_framerate_buckets :
    (∀ (files : List String) (timeFn : String → Option ℚ),
      files.length < 2 → guess_framerate files timeFn = 10) ∧
    (∀ (files : List String) (timeFn : String → Option ℚ),
      timeFn files.headI = none ∨ timeFn files.getLastI = none →
      guess_framerate files timeFn = 10) ∧
    (∀ (files : List String) (timeFn : String → Option ℚ) (t1 t2 : ℚ),
      timeFn files.headI = some t1 → timeFn files.getLastI = some t2 → t2 ≤ t1 →
      guess_framerate files timeFn = 10) ∧
    (∀ (fr : Int), mappingWalk fr (frMapping fr) = bucketTable fr) ∧
    (∀ (files : List String) (timeFn : String → Option ℚ) (t1 t2 : ℚ),
      2 ≤ files.length →
      timeFn files.headI = some t1 → timeFn files.getLastI = some t2 → t1 < t2 →
      guess_framerate files timeFn =
        bucketTable (pyRound (1 / ((t2 - t1) / ((files.length : ℚ) - 1))))) ∧
    guess_framerate ["f1", "f2"] tfRate13 = 12 ∧
    guess_framerate ["f1", "f2"] tfRate24 = 25 ∧
    guess_framerate ["f1", "f2"] tfRateHalf = 1 := by
  have hwalk : ∀ (fr : Int), mappingWalk fr (frMapping fr) = bucketTable fr := by
    intro fr
    simp only [frMapping, mappingWalk, bucketTable]
    split_ifs <;> omega
  have hmain : ∀ (files : List String) (timeFn : String → Option ℚ) (t1 t2 : ℚ),
      2 ≤ files.length →
      timeFn files.headI = some t1 → timeFn files.getLastI = some t2 → t1 < t2 →
      guess_framerate files timeFn =
        bucketTable (pyRound (1 / ((t2 - t1) / ((files.length : ℚ) - 1)))) := by
    intro files timeFn t1 t2 hlen h1 h2 hlt
    unfold guess_framerate
    rw [if_neg (by omega), h1, h2]
    simp only [if_neg (not_le.mpr hlt)]
    exact hwalk _
  refine ⟨?_, ?_, ?_, hwalk, hmain, ?_, ?_, ?_⟩
  · intro files timeFn h
    unfold guess_framerate
    rw [if_pos h]
  · intro files timeFn h
    unfold guess_framerate
    rcases Nat.lt_or_ge files.length 2 with hl | hl
    · rw [if_pos hl]
    · rw [if_neg (by omega)]
      rcases h with h | h
      · rw [h]
      · rw [h]
        cases htf : timeFn files.headI <;> simp
  · intro files timeFn t1 t2 h1 h2 hle
    unfold guess_framerate
    rcases Nat.lt_or_ge files.length 2 with hl | hl
    · rw [if_pos hl]
    · rw [if_neg (by omega), h1, h2]
      simp only [if_pos hle]
  · have hthis := hmain ["f1", "f2"] tfRate13 0 (1/13) (by decide) rfl rfl (by norm_num)
    have harg : (1 : ℚ) / (((1/13 : ℚ) - 0) / ((((["f1", "f2"] : List String).length : ℚ)) - 1)) = 13 := by
      norm_num
    rw [hthis, harg]
    have hr : pyRound 13 = 13 := by
      unfold pyRound
      norm_num
    rw [hr]
    decide
  · have hthis := hmain ["f1", "f2"] tfRate24 0 (1/24) (by decide) rfl rfl (by norm_num)
    have harg : (1 : ℚ) / (((1/24 : ℚ) - 0) / ((((["f1", "f2"] : List String).length : ℚ)) - 1)) = 24 := by
      norm_num
    rw [hthis, harg]
    have hr : pyRound 24 = 24 := by
      unfold pyRound
      norm_num
    rw [hr]
    decide
  · have hthis := hmain ["f1", "f2"] tfRateHalf 0 2 (by decide) rfl rfl (by norm_num)
    have harg : (1 : ℚ) / (((2 : ℚ) - 0) / ((((["f1", "f2"] : List String).length : ℚ)) - 1)) = 1/2 := by
      norm_num
    rw [hthis, harg]
    have hr : pyRound (1/2) = 0 := by
      unfold pyRound
      norm_num
    rw [hr]
    decide

/-! ## Helper lemmas about `splitWhen` and the `find_all_series` walk -/

theorem splitCons_flatten {α : Type} (c : α → α → Prop) [DecidableRel c] (x : α)
    (gs : List (List α)) : (splitCons c x gs).flatten = x :: gs.flatten := by
  match gs with
  | [] => rfl
  | [] :: rest => rfl
  | (y :: ys) :: rest =>
    unfold splitCons
    by_cases h : c x y <;> simp [h]

theorem splitWhen_flatten {α : Type} (c : α → α → Prop) [DecidableRel c] :
    ∀ (l : List α), (splitWhen c l).flatten = l := by
  intro l
  induction l with
  | nil => rfl
  | cons x xs ih =>
    unfold splitWhen
    rw [splitCons_flatten, ih]

theorem splitWhen_cons_structure {α : Type} (c : α → α → Prop) [DecidableRel c]
    (x : α) (xs : List α) :
    ∃ t rest, splitWhen c (x :: xs) = (x :: t) :: rest := by
  show ∃ t rest, splitCons c x (splitWhen c xs) = (x :: t) :: rest
  match h : splitWhen c xs with
  | [] => exact ⟨[], [], rfl⟩
  | [] :: rest => exact ⟨[], [] :: rest, rfl⟩
  | (y :: ys) :: rest =>
    by_cases hc : c x y
    · exact ⟨[], (y :: ys) :: rest, by simp [splitCons, hc]⟩
    · exact ⟨y :: ys, rest, by simp [splitCons, hc]⟩

theorem splitWhen_ne_nil {α : Type} (c : α → α → Prop) [DecidableRel c] :
    ∀ (l : List α), ∀ g ∈ splitWhen c l, g ≠ [] := by
  intro l
  induction l with
  | nil => intro g hg; simp [splitWhen] at hg
  | cons x xs ih =>
    intro g hg
    rw [splitWhen] at hg
    match h : splitWhen c xs with
    | [] =>
      rw [h] at hg
      simp [splitCons] at hg
      simp [hg]
    | [] :: rest => exact absurd rfl (ih [] (h ▸ List.mem_cons_self [] rest))
    | (y :: ys) :: rest =>
      rw [h] at hg
      by_cases hc : c x y
      · simp only [splitCons, if_pos hc] at hg
        rcases List.mem_cons.mp hg with h1 | h1
        · simp [h1]
        · exact ih g (h ▸ h1)
      · simp only [splitCons, if_neg hc] at hg
        rcases List.mem_cons.mp hg with h1 | h1
        · simp [h1]
        · exact ih g (h ▸ List.mem_cons_of_mem _ h1)

theorem splitWhen_chain {α : Type} (c : α → α → Prop) [DecidableRel c] :
    ∀ (l : List α), ∀ g ∈ splitWhen c l, g.Chain' (fun a b => ¬ c a b) := by
  intro l
  induction l with
  | nil => intro g hg; simp [splitWhen] at hg
  | cons x xs ih =>
    intro g hg
    rw [splitWhen] at hg
    match h : splitWhen c xs with
    | [] =>
      rw [h] at hg
      simp [splitCons] at hg
      simp [hg]
    | [] :: rest => exact absurd rfl (splitWhen_ne_nil c xs [] (h ▸ List.mem_cons_self [] rest))
    | (y :: ys) :: rest =>
      rw [h] at hg
      by_cases hc : c x y
      · simp only [splitCons, if_pos hc] at hg
        rcases List.mem_cons.mp hg with h1 | h1
        · simp [h1]
        · exact ih g (h ▸ h1)
      · simp only [splitCons, if_neg hc] at hg
        rcases List.mem_cons.mp hg with h1 | h1
        · subst h1
          have hchain := ih (y :: ys) (h ▸ List.mem_cons_self _ rest)
          exact List.Chain'.cons hc hchain
        · exact ih g (h ▸ List.mem_cons_of_mem _ h1)

theorem getLastI_cons_cons {α : Type} [Inhabited α] (a b : α) (l : List α) :
    (a :: b :: l).getLastI = (b :: l).getLastI := by
  simp [List.getLastI_eq_getLast?]

theorem headI_mem {α : Type} [Inhabited α] (l : List α) (h : l ≠ []) : l.headI ∈ l := by
  cases l with
  | nil => exact absurd rfl h
  | cons a t => exact List.mem_cons_self a t

theorem getLastI_mem {α : Type} [Inhabited α] (l : List α) (h : l ≠ []) : l.getLastI ∈ l := by
  induction l with
  | nil => exact absurd rfl h
  | cons a t ih =>
    cases t with
    | nil => simp [List.getLastI]
    | cons b t' =>
      rw [getLastI_cons_cons]
      exact List.mem_cons_of_mem _ (ih (by simp))

theorem headI_append {α : Type} [Inhabited α] (l₁ l₂ : List α) (h : l₁ ≠ []) :
    (l₁ ++ l₂).headI = l₁.headI := by
  cases l₁ with
  | nil => exact absurd rfl h
  | cons a t => rfl

theorem splitWhen_boundary {α : Type} [Inhabited α] (c : α → α → Prop) [DecidableRel c] :
    ∀ (l : List α), (splitWhen c l).Chain' (fun g h => c g.getLastI h.headI) := by
  intro l
  induction l with
  | nil => simp [splitWhen]
  | cons x xs ih =>
    rw [splitWhen]
    match h : splitWhen c xs with
    | [] => simp [splitCons]
    | [] :: rest => exact absurd rfl (splitWhen_ne_nil c xs [] (h ▸ List.mem_cons_self [] rest))
    | (y :: ys) :: rest =>
      rw [h] at ih
      by_cases hc : c x y
      · simp only [splitCons, if_pos hc]
        exact List.Chain'.cons (by simpa [List.getLastI] using hc) ih
      · simp only [splitCons, if_neg hc]
        cases rest with
        | nil => simp
        | cons r rs =>
          rcases List.chain'_cons.mp ih with ⟨hyr, hrest⟩
          exact List.chain'_cons.mpr ⟨by rwa [getLastI_cons_cons], hrest⟩

theorem splitWhen_congr {α : Type} (c₁ c₂ : α → α → Prop) [DecidableRel c₁] [DecidableRel c₂] :
    ∀ (l : List α), (∀ a ∈ l, ∀ b ∈ l, (c₁ a b ↔ c₂ a b)) →
      splitWhen c₁ l = splitWhen c₂ l := by
  intro l
  induction l with
  | nil => intro _; rfl
  | cons x xs ih =>
    intro hiff
    have hxs : splitWhen c₁ xs = splitWhen c₂ xs :=
      ih (fun a ha b hb => hiff a (List.mem_cons_of_mem x ha) b (List.mem_cons_of_mem x hb))
    rw [splitWhen, splitWhen, hxs]
    match h : splitWhen c₂ xs with
    | [] => rfl
    | [] :: rest => rfl
    | (y :: ys) :: rest =>
      have hy : y ∈ xs := by
        have hfl := splitWhen_flatten c₂ xs
        rw [h] at hfl
        rw [← hfl]
        simp
      have : c₁ x y ↔ c₂ x y :=
        hiff x (List.mem_cons_self x xs) y (List.mem_cons_of_mem x hy)
      by_cases hc : c₂ x y
      · simp [splitCons, hc, this.mpr hc]
      · have hc1 : ¬ c₁ x y := fun hcc => hc (this.mp hcc)
        simp [splitCons, hc, hc1]

theorem splitWhen_single {α : Type} (c : α → α → Prop) [DecidableRel c] :
    ∀ (l : List α), l ≠ [] → (∀ a ∈ l, ∀ b ∈ l, ¬ c a b) → splitWhen c l = [l] := by
  intro l
  induction l with
  | nil => intro h; exact absurd rfl h
  | cons x xs ih =>
    intro _ hno
    cases xs with
    | nil => rfl
    | cons y ys =>
      have hxs : splitWhen c (y :: ys) = [y :: ys] :=
        ih (by simp) (fun a ha b hb =>
          hno a (List.mem_cons_of_mem x ha) b (List.mem_cons_of_mem x hb))
      rw [splitWhen, hxs]
      have hc : ¬ c x y :=
        hno x (List.mem_cons_self _ _) y (List.mem_cons_of_mem x (List.mem_cons_self _ _))
      simp [splitCons, hc]

theorem splitCons_append_left {α : Type} (c : α → α → Prop) [DecidableRel c] (x : α)
    (gs hs : List (List α)) (h : gs ≠ []) :
    splitCons c x (gs ++ hs) = splitCons c x gs ++ hs := by
  match gs with
  | [] => exact absurd rfl h
  | [] :: rest => rfl
  | (y :: ys) :: rest =>
    by_cases hc : c x y <;> simp [splitCons, hc]

theorem splitWhen_append_break {α : Type} [Inhabited α] (c : α → α → Prop) [DecidableRel c] :
    ∀ (l₁ l₂ : List α), l₁ ≠ [] → l₂ ≠ [] → c l₁.getLastI l₂.headI →
      splitWhen c (l₁ ++ l₂) = splitWhen c l₁ ++ splitWhen c l₂ := by
  intro l₁
  induction l₁ with
  | nil => intro l₂ h; exact absurd rfl h
  | cons a t ih =>
    intro l₂ _ hl₂ hbreak
    cases t with
    | nil =>
      cases l₂ with
      | nil => exact absurd rfl hl₂
      | cons z l₂' =>
        obtain ⟨u, rest, hz⟩ := splitWhen_cons_structure c z l₂'
        have hc : c a z := by simpa [List.getLastI] using hbreak
        show splitCons c a (splitWhen c (z :: l₂')) = splitWhen c [a] ++ splitWhen c (z :: l₂')
        rw [hz]
        simp [splitCons, hc, splitWhen]
    | cons b t' =>
      have hlast : (a :: b :: t').getLastI = (b :: t').getLastI := getLastI_cons_cons a b t'
      have ihr : splitWhen c ((b :: t') ++ l₂) = splitWhen c (b :: t') ++ splitWhen c l₂ :=
        ih l₂ (by simp) hl₂ (by rwa [hlast] at hbreak)
      show splitCons c a (splitWhen c ((b :: t') ++ l₂)) =
        splitCons c a (splitWhen c (b :: t')) ++ splitWhen c l₂
      rw [ihr]
      obtain ⟨u, rest, hb⟩ := splitWhen_cons_structure c b t'
      exact splitCons_append_left c a _ _ (by rw [hb]; simp)

theorem appendToLast_concat (acc : List (List ImageFile)) (cur : List ImageFile)
    (x : ImageFile) : appendToLast (acc ++ [cur]) x = acc ++ [cur ++ [x]] := by
  unfold appendToLast
  rw [List.dropLast_concat, List.getLastD_concat]

theorem walkAux_splitWhen :
    ∀ (l : List ImageFile) (prev : ImageFile) (acc : List (List ImageFile))
      (cur t : List ImageFile) (rest : List (List ImageFile)),
      splitWhen newSeriesCond (prev :: l) = (prev :: t) :: rest →
      walkAux prev (acc ++ [cur]) l = acc ++ ((cur ++ t) :: rest) := by
  intro l
  induction l with
  | nil =>
    intro prev acc cur t rest h
    have h' : ([[prev]] : List (List ImageFile)) = (prev :: t) :: rest := by rw [← h]; rfl
    injection h' with h1 h2
    injection h1 with h3 h4
    rw [walkAux, ← h4, ← h2]
    simp
  | cons x xs ih =>
    intro prev acc cur t rest h
    obtain ⟨t', rest', hx⟩ := splitWhen_cons_structure newSeriesCond x xs
    have hsplit : splitWhen newSeriesCond (prev :: x :: xs) =
        splitCons newSeriesCond prev ((x :: t') :: rest') := by
      rw [splitWhen, hx]
    by_cases hc : newSeriesCond prev x
    · rw [hsplit] at h
      simp only [splitCons, if_pos hc] at h
      have ht0 : t = [] := by
        injection h with h1 h2
        injection h1 with h3 h4
        exact h4.symm
      have hrest : rest = (x :: t') :: rest' := by
        injection h with h1 h2
        exact h2.symm
      rw [ht0, hrest, walkAux, if_pos hc]
      have hih := ih x (acc ++ [cur]) [x] t' rest' hx
      rw [hih]
      simp
    · rw [hsplit] at h
      simp only [splitCons, if_neg hc] at h
      have ht0 : t = x :: t' := by
        injection h with h1 h2
        injection h1 with h3 h4
        exact h4.symm
      have hrest : rest = rest' := by
        injection h with h1 h2
        exact h2.symm
      rw [ht0, hrest, walkAux, if_neg hc, appendToLast_concat]
      have hih := ih x acc (cur ++ [x]) t' rest' hx
      rw [hih]
      simp

theorem walkGroup_splitWhen (g : List ImageFile) (acc : List (List ImageFile)) :
    walkGroup acc g = acc ++ splitWhen newSeriesCond g := by
  cases g with
  | nil => simp [walkGroup, splitWhen]
  | cons x xs =>
    obtain ⟨t, rest, h⟩ := splitWhen_cons_structure newSeriesCond x xs
    show walkAux x (acc ++ [[x]]) xs = acc ++ splitWhen newSeriesCond (x :: xs)
    rw [walkAux_splitWhen xs x acc [x] t rest h, h]
    simp

theorem foldl_walkGroup :
    ∀ (gs : List (List ImageFile)) (acc : List (List ImageFile)),
      gs.foldl (fun a g => walkGroup a (sortBySeq g)) acc =
        acc ++ (gs.map (fun g => splitWhen newSeriesCond (sortBySeq g))).flatten := by
  intro gs
  induction gs with
  | nil => intro acc; simp
  | cons g gs' ih =>
    intro acc
    show (gs').foldl (fun a g => walkGroup a (sortBySeq g)) (walkGroup acc (sortBySeq g)) = _
    rw [ih, walkGroup_splitWhen]
    simp

theorem chain'_const_pattern :
    ∀ (g : List ImageFile), g.Chain' (fun a b => a.path_pattern = b.path_pattern) →
      ∀ a ∈ g, a.path_pattern = g.headI.path_pattern := by
  intro g
  induction g with
  | nil => intro _ a ha; simp at ha
  | cons x xs ih =>
    intro hchain a ha
    cases xs with
    | nil =>
      rcases List.mem_singleton.mp ha with rfl
      rfl
    | cons y ys =>
      rcases List.chain'_cons.mp hchain with ⟨hxy, hrest⟩
      rcases List.mem_cons.mp ha with rfl | ha'
      · rfl
      · have := ih hrest a ha'
        simp only [List.headI] at this ⊢
        rw [this, ← hxy]

theorem sortBySeq_perm (g : List ImageFile) : (sortBySeq g).Perm g :=
  List.perm_insertionSort _ g

theorem sortBySeq_mem (g : List ImageFile) (a : ImageFile) :
    a ∈ sortBySeq g ↔ a ∈ g :=
  (sortBySeq_perm g).mem_iff

theorem sortBySeq_ne_nil (g : List ImageFile) (h : g ≠ []) : sortBySeq g ≠ [] := by
  intro h0
  have hp := sortBySeq_perm g
  rw [h0] at hp
  exact h hp.symm.eq_nil

theorem fullBreak_iff_newSeries_of_same_pattern (a b : ImageFile)
    (hpp : a.path_pattern = b.path_pattern) :
    (fullBreakCond a b ↔ newSeriesCond a b) := by
  unfold fullBreakCond newSeriesCond
  constructor
  · rintro (h | h | h)
    · exact absurd hpp.symm h
    · exact Or.inl h
    · exact Or.inr h
  · rintro (h | h)
    · exact Or.inr (Or.inl h)
    · exact Or.inr (Or.inr h)

theorem flatten_map_splitWhen :
    ∀ (gs : List (List ImageFile)),
      (∀ g ∈ gs, g ≠ []) →
      (∀ g ∈ gs, ∀ a ∈ g, ∀ b ∈ g, a.path_pattern = b.path_pattern) →
      gs.Chain' (fun g h => g.getLastI.path_pattern ≠ h.headI.path_pattern) →
      (gs.map (fun g => splitWhen newSeriesCond (sortBySeq g))).flatten =
        splitWhen fullBreakCond (gs.map sortBySeq).flatten := by
  intro gs
  induction gs with
  | nil => intro _ _ _; rfl
  | cons g gs' ih =>
    intro hne hconst hbound
    have hg : g ≠ [] := hne g (List.mem_cons_self _ _)
    have hgconst := hconst g (List.mem_cons_self _ _)
    have hsame : splitWhen newSeriesCond (sortBySeq g) = splitWhen fullBreakCond (sortBySeq g) := by
      refine (splitWhen_congr fullBreakCond newSeriesCond (sortBySeq g) ?_).symm
      intro a ha b hb
      exact fullBreak_iff_newSeries_of_same_pattern a b
        (hgconst a ((sortBySeq_mem g a).mp ha) b ((sortBySeq_mem g b).mp hb))
    cases gs' with
    | nil =>
      simp only [List.map_cons, List.map_nil, List.flatten_cons, List.flatten_nil,
        List.append_nil]
      exact hsame
    | cons g' gs'' =>
      have hg' : g' ≠ [] := hne g' (List.mem_cons_of_mem g (List.mem_cons_self _ _))
      have hflne : ((g' :: gs'').map sortBySeq).flatten ≠ [] := by
        simp only [List.map_cons, List.flatten_cons]
        intro h0
        exact sortBySeq_ne_nil g' hg' (List.append_eq_nil.mp h0).1
      have hbreak : fullBreakCond (sortBySeq g).getLastI
          (((g' :: gs'').map sortBySeq).flatten).headI := by
        have hhead : (((g' :: gs'').map sortBySeq).flatten).headI = (sortBySeq g').headI := by
          simp only [List.map_cons, List.flatten_cons]
          exact headI_append _ _ (sortBySeq_ne_nil g' hg')
        have hlmem : (sortBySeq g).getLastI ∈ g :=
          (sortBySeq_mem g _).mp (getLastI_mem _ (sortBySeq_ne_nil g hg))
        have hhmem : (sortBySeq g').headI ∈ g' :=
          (sortBySeq_mem g' _).mp (headI_mem _ (sortBySeq_ne_nil g' hg'))
        have hlp : (sortBySeq g).getLastI.path_pattern = g.getLastI.path_pattern := by
          have h1 := hgconst _ hlmem _ (getLastI_mem g hg)
          exact h1
        have hhp : (sortBySeq g').headI.path_pattern = g'.headI.path_pattern := by
          exact hconst g' (List.mem_cons_of_mem g (List.mem_cons_self _ _)) _ hhmem _
            (headI_mem g' hg')
        have hbnd : g.getLastI.path_pattern ≠ g'.headI.path_pattern :=
          (List.chain'_cons.mp hbound).1
        rw [hhead]
        unfold fullBreakCond
        left
        rw [hhp, hlp]
        exact fun h => hbnd h.symm
      have hihyp := ih (fun x hx => hne x (List.mem_cons_of_mem g hx))
        (fun x hx => hconst x (List.mem_cons_of_mem g hx))
        ((List.chain'_cons'.mp hbound).2)
      have happ := splitWhen_append_break fullBreakCond (sortBySeq g)
        (((g' :: gs'').map sortBySeq).flatten) (sortBySeq_ne_nil g hg) hflne hbreak
      simp only [List.map_cons, List.flatten_cons] at happ hihyp ⊢
      rw [hsame, hihyp, ← happ]

theorem splitWhen_patternDiffers_facts (images : List ImageFile) :
    (∀ g ∈ splitWhen patternDiffers images, g ≠ []) ∧
    (∀ g ∈ splitWhen patternDiffers images, ∀ a ∈ g, ∀ b ∈ g,
      a.path_pattern = b.path_pattern) ∧
    (splitWhen patternDiffers images).Chain'
      (fun g h => g.getLastI.path_pattern ≠ h.headI.path_pattern) := by
  refine ⟨splitWhen_ne_nil patternDiffers images, ?_, ?_⟩
  · intro g hg a ha b hb
    have hchain := splitWhen_chain patternDiffers images g hg
    have hchain' : g.Chain' (fun a b => a.path_pattern = b.path_pattern) := by
      refine hchain.imp ?_
      intro a b h
      unfold patternDiffers at h
      exact not_not.mp h
    have h1 := chain'_const_pattern g hchain' a ha
    have h2 := chain'_const_pattern g hchain' b hb
    rw [h1, h2]
  · have := splitWhen_boundary patternDiffers images
    refine this.imp ?_
    intro g h hc
    exact hc

/-- The `find_all_series` loop is equivalent to splitting the walk order at the
full break condition and filtering by length. -/
theorem find_all_series_eq_splitWhen (images : List ImageFile) (m : Nat) :
    find_all_series images m =
      (splitWhen fullBreakCond (walkOrder images)).filter (fun s => m ≤ s.length) := by
  simp only [find_all_series, walkOrder]
  obtain ⟨hne, hconst, hbound⟩ := splitWhen_patternDiffers_facts images
  rw [foldl_walkGroup (splitWhen patternDiffers images) [], List.nil_append,
    flatten_map_splitWhen (splitWhen patternDiffers images) hne hconst hbound]

/-! ## C6: when a new series starts -/

/-- Claim C6 (confirmed): a new series starts exactly at the images of the
processed order (each `groupby` run sorted by sequence number) that are first,
change pattern, break the `+1` sequence step, or follow a time gap of more
than one second — i.e. `find_all_series` equals splitting the walk order at
`fullBreakCond` — and series shorter than `min_num_images` are then dropped;
in particular sequence numbers `[1,2,3,5,6]` (same pattern, time 0,
minimum 1) give the two series `[1-3]` and `[5-6]`, numbers `[1,2,3]` with a
gap of more than one second before `3` give `[1,2]` and `[3]`, and a minimum
of 2 drops every shorter series. -/
theorem c6_new_series_boundaries :
    (∀ (images : List ImageFile) (m : Nat),
      find_all_series images m =
        (splitWhen fullBreakCond (walkOrder images)).filter (fun s => m ≤ s.length)) ∧
    find_all_series [mkImg "IMG_*.jpg" 1 0, mkImg "IMG_*.jpg" 2 0, mkImg "IMG_*.jpg" 3 0,
        mkImg "IMG_*.jpg" 5 0, mkImg "IMG_*.jpg" 6 0] 1 =
      [[mkImg "IMG_*.jpg" 1 0, mkImg "IMG_*.jpg" 2 0, mkImg "IMG_*.jpg" 3 0],
       [mkImg "IMG_*.jpg" 5 0, mkImg "IMG_*.jpg" 6 0]] ∧
    find_all_series [mkImg "IMG_*.jpg" 1 0, mkImg "IMG_*.jpg" 2 0, mkImg "IMG_*.jpg" 3 2] 1 =
      [[mkImg "IMG_*.jpg" 1 0, mkImg "IMG_*.jpg" 2 0], [mkImg "IMG_*.jpg" 3 2]] ∧
    find_all_series [mkImg "DSC_*.jpg" 1 0, mkImg "IMA_*.jpg" 2 0, mkImg "IMA_*.jpg" 3 0] 2 =
      [[mkImg "IMA_*.jpg" 2 0, mkImg "IMA_*.jpg" 3 0]] := by
  refine ⟨find_all_series_eq_splitWhen, ?_, ?_, ?_⟩ <;>
    norm_num [find_all_series, splitWhen, splitCons, patternDiffers, sortBySeq,
      List.insertionSort, List.orderedInsert, walkGroup, walkAux, newSeriesCond,
      appendToLast, mkImg, (by decide : "DSC_*.jpg" ≠ "IMA_*.jpg"),
      (by decide : "IMA_*.jpg" ≠ "DSC_*.jpg")]

/-! ## C3: no global pre-sort before grouping -/

/-- Claim C3 (counterexample): `find_all_series` groups with
`itertools.groupby` over the *input order*, so two same-pattern images
separated by a different pattern end up in different series; with patterns
`P, Q, P`, sequence numbers `1, 5, 2` and minimum length 1 the code returns
three singleton series, and no returned series contains both `P`-images. -/
theorem c3_counterexample :
    find_all_series [mkImg "P" 1 0, mkImg "Q" 5 0, mkImg "P" 2 0] 1 =
      [[mkImg "P" 1 0], [mkImg "Q" 5 0], [mkImg "P" 2 0]] ∧
    ∀ s ∈ find_all_series [mkImg "P" 1 0, mkImg "Q" 5 0, mkImg "P" 2 0] 1,
      ¬ (mkImg "P" 1 0 ∈ s ∧ mkImg "P" 2 0 ∈ s) := by
  have h1 : find_all_series [mkImg "P" 1 0, mkImg "Q" 5 0, mkImg "P" 2 0] 1 =
      [[mkImg "P" 1 0], [mkImg "Q" 5 0], [mkImg "P" 2 0]] := by
    norm_num [find_all_series, splitWhen, splitCons, patternDiffers, sortBySeq,
      List.insertionSort, List.orderedInsert, walkGroup, walkAux, newSeriesCond,
      appendToLast, mkImg, (by decide : "P" ≠ "Q"), (by decide : "Q" ≠ "P")]
  refine ⟨h1, ?_⟩
  rw [h1]
  intro s hs
  rintro ⟨hp1, hp2⟩
  rcases List.mem_cons.mp hs with rfl | hs'
  · rcases List.mem_singleton.mp hp2 with h
    simp [mkImg] at h
  · rcases List.mem_cons.mp hs' with rfl | hs''
    · rcases List.mem_singleton.mp hp1 with h
      simp [mkImg] at h
    · rcases List.mem_singleton.mp hs'' with rfl
      rcases List.mem_singleton.mp hp1 with h
      simp [mkImg] at h

/-- Claim C3 (amended): `find_all_series` partitions the *input order* into
maximal runs of consecutive images sharing `path_pattern`, stable-sorts each
run by sequence number, and walks each run independently, so same-pattern
images separated by a different pattern are never merged; when the whole
input shares one pattern, the result is exactly the walk over the input
stable-sorted by sequence number (series ordered by starting sequence
number), filtered by the minimum length. -/
theorem c3_same_pattern_sorted_walk (images : List ImageFile) (m : Nat)
    (hconst : ∀ a ∈ images, ∀ b ∈ images, a.path_pattern = b.path_pattern) :
    find_all_series images m =
      (splitWhen fullBreakCond (sortBySeq images)).filter (fun s => m ≤ s.length) := by
  cases himg : images with
  | nil => rfl
  | cons x xs =>
    rw [← himg, find_all_series_eq_splitWhen]
    have hone : splitWhen patternDiffers images = [images] := by
      refine splitWhen_single patternDiffers images (by rw [himg]; simp) ?_
      intro a ha b hb
      unfold patternDiffers
      rw [hconst a ha b hb]
      exact fun h => h rfl
    unfold walkOrder
    rw [hone]
    simp

/-- Witness for `c3_same_pattern_sorted_walk`: a same-pattern input given out
of sequence order. -/
theorem c3_same_pattern_sorted_walk_witness :
    find_all_series [mkImg "P" 2 0, mkImg "P" 1 0] 1 =
      (splitWhen fullBreakCond (sortBySeq [mkImg "P" 2 0, mkImg "P" 1 0])).filter
        (fun s => 1 ≤ s.length) :=
  c3_same_pattern_sorted_walk [mkImg "P" 2 0, mkImg "P" 1 0] 1
    (by intro a ha b hb; fin_cases ha <;> fin_cases hb <;> rfl)

/-! ## C9: invariants of every returned series -/

/-- Claim C9 (confirmed): every series returned by `find_all_series` is
non-empty, has at least `min_num_images` images, all its images share one
`path_pattern`, and along the series each sequence number is the predecessor's
successor and each capture time is at most one second after the
predecessor's. -/
theorem c9_series_invariants (images : List ImageFile) (m : Nat) (s : List ImageFile)
    (hs : s ∈ find_all_series images m) :
    s ≠ [] ∧ m ≤ s.length ∧
    (∀ a ∈ s, a.path_pattern = s.headI.path_pattern) ∧
    s.Chain' (fun p q => q.sequence_num = p.sequence_num + 1 ∧ q.time - p.time ≤ 1) := by
  rw [find_all_series_eq_splitWhen] at hs
  rcases List.mem_filter.mp hs with ⟨hmem, hlen⟩
  have hne := splitWhen_ne_nil fullBreakCond (walkOrder images) s hmem
  have hchain := splitWhen_chain fullBreakCond (walkOrder images) s hmem
  have hcomp : s.Chain' (fun p q => q.path_pattern = p.path_pattern ∧
      q.sequence_num = p.sequence_num + 1 ∧ q.time - p.time ≤ 1) := by
    refine hchain.imp ?_
    intro a b h
    unfold fullBreakCond at h
    push_neg at h
    exact ⟨h.1, h.2.1, h.2.2⟩
  have hpp : s.Chain' (fun a b => a.path_pattern = b.path_pattern) :=
    hcomp.imp (fun a b h => h.1.symm)
  exact ⟨hne, by simpa using hlen, chain'_const_pattern s hpp,
    hcomp.imp (fun a b h => ⟨h.2.1, h.2.2⟩)⟩

/-- Witness for `c9_series_invariants` on a four-image burst. -/
theorem c9_series_invariants_witness :
    ([mkImg "P" 1 0, mkImg "P" 2 0, mkImg "P" 3 0, mkImg "P" 4 0] : List ImageFile) ≠ [] ∧
    4 ≤ ([mkImg "P" 1 0, mkImg "P" 2 0, mkImg "P" 3 0, mkImg "P" 4 0] : List ImageFile).length ∧
    (∀ a ∈ ([mkImg "P" 1 0, mkImg "P" 2 0, mkImg "P" 3 0, mkImg "P" 4 0] : List ImageFile),
      a.path_pattern =
        ([mkImg "P" 1 0, mkImg "P" 2 0, mkImg "P" 3 0, mkImg "P" 4 0] : List ImageFile).headI.path_pattern) ∧
    ([mkImg "P" 1 0, mkImg "P" 2 0, mkImg "P" 3 0, mkImg "P" 4 0] : List ImageFile).Chain'
      (fun p q => q.sequence_num = p.sequence_num + 1 ∧ q.time - p.time ≤ 1) := by
  refine c9_series_invariants
    [mkImg "P" 1 0, mkImg "P" 2 0, mkImg "P" 3 0, mkImg "P" 4 0] 4
    [mkImg "P" 1 0, mkImg "P" 2 0, mkImg "P" 3 0, mkImg "P" 4 0] ?_
  have h : find_all_series [mkImg "P" 1 0, mkImg "P" 2 0, mkImg "P" 3 0, mkImg "P" 4 0] 4 =
      [[mkImg "P" 1 0, mkImg "P" 2 0, mkImg "P" 3 0, mkImg "P" 4 0]] := by
    norm_num [find_all_series, splitWhen, splitCons, patternDiffers, sortBySeq,
      List.insertionSort, List.orderedInsert, walkGroup, walkAux, newSeriesCond,
      appendToLast, mkImg]
  rw [h]
  exact List.mem_singleton.mpr rfl

/-! ## C4: validation errors and command emission -/

/-- Claim C4 (confirmed): `ffmpeg_2pass_and_exif` raises a
`CommandlineArgumentError` exactly when no input resolves, an output path is
heuristically detected, the encoder is neither `libx264` nor `libx265`, or the
encoder is `libx265` without `-tag:v hvc1`; and whenever it raises, no command
has been passed to the process runner. -/
theorem c4_plan_validation (args : List String) (fs : String → List String)
    (globFn : String → List String) :
    ((∃ e, (ffmpeg_2pass_and_exif args fs globFn).1 = Except.error e) ↔
      (¬ inputResolved (find_one_input args fs globFn) ∨
       (find_output args).isSome = true ∨
       ¬ (find_encoder args = some "libx264" ∨ find_encoder args = some "libx265") ∨
       (find_encoder args = some "libx265" ∧ tagHvc1Ok args = false))) ∧
    (∀ (e : PlanError) (cmds : List (List String)),
      ffmpeg_2pass_and_exif args fs globFn = (Except.error e, cmds) → cmds = []) := by
  constructor
  · simp only [ffmpeg_2pass_and_exif]
    split
    next hin =>
      simp [hin, inputResolved]
    next inp hin =>
      by_cases hemp : inp = ""
      · rw [if_pos hemp]
        simp [hin, hemp, inputResolved]
      · rw [if_neg hemp]
        by_cases hout : (find_output args).isSome = true
        · rw [if_pos hout]
          simp [hin, hemp, hout, inputResolved]
        · rw [if_neg hout]
          split
          next henc =>
            simp [hin, hemp, hout, henc, inputResolved]
          next enc henc =>
            by_cases hwl : enc = "libx264" ∨ enc = "libx265"
            · rw [if_neg (not_not_intro hwl)]
              by_cases hx5 : enc = "libx265" ∧ ¬ (tagHvc1Ok args = true)
              · rw [if_pos hx5]
                constructor
                · intro _
                  right; right; right
                  exact ⟨by rw [henc, hx5.1], by simpa using hx5.2⟩
                · intro _
                  exact ⟨PlanError.x265NoTag, rfl⟩
              · rw [if_neg hx5]
                constructor
                · rintro ⟨e, he⟩
                  exact absurd he (by simp)
                · rintro (hbad | hbad | hbad | hbad)
                  · rw [hin] at hbad
                    exact absurd ⟨inp, rfl, hemp⟩ hbad
                  · exact absurd hbad hout
                  · refine absurd ?_ hbad
                    rw [henc]
                    rcases hwl with h | h
                    · exact Or.inl (by rw [h])
                    · exact Or.inr (by rw [h])
                  · rcases hbad with ⟨h265, htag⟩
                    refine absurd ⟨?_, by simp [htag]⟩ hx5
                    rw [henc] at h265
                    injection h265
            · rw [if_pos hwl]
              constructor
              · intro _
                right; right; left
                rw [henc]
                intro hcon
                apply hwl
                rcases hcon with h | h
                · left; injection h
                · right; injection h
              · intro _
                exact ⟨PlanError.badEncoder, rfl⟩
  · intro e cmds h
    simp only [ffmpeg_2pass_and_exif] at h
    split at h
    · injection h with h1 h2; exact h2.symm
    · split_ifs at h <;>
        first
        | (injection h with h1 h2; exact h2.symm)
        | (split at h <;>
            first
            | (injection h with h1 h2; exact h2.symm)
            | (split_ifs at h <;> injection h with h1 h2 <;>
                first
                | exact h2.symm
                | exact absurd h1 (by simp)))

/-- Witness for `c4_plan_validation` on the empty argument vector, whose plan
fails with `noInput` before emitting any command. -/
theorem c4_plan_validation_witness : ([] : List (List String)) = [] :=
  (c4_plan_validation [] fs0 glob0).2 PlanError.noInput [] (by decide)

/-! ## C5: derived output path -/

/-- Claim C5 (confirmed): for every argument vector that validates, the
output path is the resolved input with its extension stripped, then `.` plus
the encoder minus its `lib` prefix, then — when a (non-empty) bitrate was
found — `.` plus the bitrate plus `bps`, then `.` plus the output format,
defaulting to `mp4`. -/
theorem c5_output_path_formula (args : List String) (fs : String → List String)
    (globFn : String → List String) (r : FfResult) (cmds : List (List String))
    (h : ffmpeg_2pass_and_exif args fs globFn = (Except.ok r, cmds)) :
    r.output_path = specOutputPath ((find_one_input args fs globFn).getD "")
      r.encoder (truthyBitrate (find_bitrate args))
      (pyOr (find_output_format args) "mp4") := by
  have hbr : ∀ (o : Option String),
      (if o.getD "" ≠ "" then "." ++ o.getD "" ++ "bps" else "") =
        (match truthyBitrate o with
         | some b => "." ++ b ++ "bps"
         | none => "") := by
    intro o
    cases o with
    | none => simp [truthyBitrate]
    | some b =>
      by_cases hb : b = "" <;> simp [truthyBitrate, hb]
  simp only [ffmpeg_2pass_and_exif] at h
  split at h
  · exact absurd h (by simp)
  next inp hin =>
    by_cases hemp : inp = ""
    · rw [if_pos hemp] at h
      exact absurd h (by simp)
    · rw [if_neg hemp] at h
      by_cases hout : (find_output args).isSome = true
      · rw [if_pos hout] at h
        exact absurd h (by simp)
      · rw [if_neg hout] at h
        split at h
        · exact absurd h (by simp)
        next enc henc =>
          by_cases hwl : enc = "libx264" ∨ enc = "libx265"
          · rw [if_neg (not_not_intro hwl)] at h
            by_cases hx5 : enc = "libx265" ∧ ¬ (tagHvc1Ok args = true)
            · rw [if_pos hx5] at h
              exact absurd h (by simp)
            · rw [if_neg hx5] at h
              have hfst := congrArg Prod.fst h
              simp only [Prod.fst] at hfst
              have hr : r = ⟨find_bitrate args, enc,
                  splitextRoot inp ++ "." ++ replaceAll enc "lib" "" ++
                    (if (find_bitrate args).getD "" ≠ "" then
                      "." ++ (find_bitrate args).getD "" ++ "bps" else "") ++
                    "." ++ pyOr (find_output_format args) "mp4"⟩ := by
                have := Except.ok.inj hfst
                exact this.symm
              rw [hin, hr]
              simp only [specOutputPath, Option.getD_some]
              rw [hbr (find_bitrate args)]
              have hstrip : replaceAll enc "lib" "" = stripLibPrefix enc := by
                rcases hwl with h' | h' <;> rw [h'] <;> decide
              rw [hstrip]
          · rw [if_pos hwl] at h
            exact absurd h (by simp)

/-- Witness for `c5_output_path_formula`: the claim's own example, input
`/a/b/IMG_001.jpg` with `libx265`, tag present, bitrate `2M`, format `mov`. -/
theorem c5_output_path_formula_witness :
    (⟨some "2M", "libx265", "/a/b/IMG_001.x265.2Mbps.mov"⟩ : FfResult).output_path =
      specOutputPath
        ((find_one_input ["-i", "/a/b/IMG_001.jpg", "-c:v", "libx265", "-tag:v", "hvc1",
            "-b:v", "2M", "-f", "mov"] fs0 glob0).getD "")
        (⟨some "2M", "libx265", "/a/b/IMG_001.x265.2Mbps.mov"⟩ : FfResult).encoder
        (truthyBitrate (find_bitrate ["-i", "/a/b/IMG_001.jpg", "-c:v", "libx265",
            "-tag:v", "hvc1", "-b:v", "2M", "-f", "mov"]))
        (pyOr (find_output_format ["-i", "/a/b/IMG_001.jpg", "-c:v", "libx265", "-tag:v",
            "hvc1", "-b:v", "2M", "-f", "mov"]) "mp4") :=
  c5_output_path_formula
    ["-i", "/a/b/IMG_001.jpg", "-c:v", "libx265", "-tag:v", "hvc1", "-b:v", "2M", "-f", "mov"]
    fs0 glob0
    ⟨some "2M", "libx265", "/a/b/IMG_001.x265.2Mbps.mov"⟩
    [["ffmpeg", "-nostdin", "-hide_banner"] ++
        ["-i", "/a/b/IMG_001.jpg", "-c:v", "libx265", "-tag:v", "hvc1", "-b:v", "2M", "-f", "mov"] ++
        ["-map", "-0?", "-map", "0:v", "-x265-params", "pass=1", "-f", "null", "/dev/null"],
      ["ffmpeg", "-nostdin", "-hide_banner"] ++
        ["-i", "/a/b/IMG_001.jpg", "-c:v", "libx265", "-tag:v", "hvc1", "-b:v", "2M", "-f", "mov"] ++
        ["-x265-params", "pass=2", "/a/b/IMG_001.x265.2Mbps.mov"],
      ["exiftool", "-tagsFromFile", "/a/b/IMG_001.jpg", "-overwrite_original",
        "/a/b/IMG_001.x265.2Mbps.mov"]]
    (by decide)

/-- Witness for `c7_guess_framerate_buckets`: fewer than two files default
to a rate of `10`. -/
theorem c7_guess_framerate_buckets_witness :
    guess_framerate [] (fun _ => none) = 10 :=
  c7_guess_framerate_buckets.1 [] (fun _ => none) (by decide)
